import Mathlib

/-!
Shallow embedding of the ranked bucket-sort core of the search engine:
the bucket-sort driver (`milli/src/search/new/bucket_sort.rs`), the Words
ranking rule (`words.rs`) and the GeoSort ranking rule (`geo_sort.rs`).

Modelling conventions:

* `RoaringBitmap` is modelled as `Finset ℕ`; ascending-order iteration is
  `RB.ascList`, proved equal to the ascending enumeration
  `Finset.sort (· ≤ ·)`; cardinality is `Finset.card`, and the in-place
  set operations become the pure `∪ / ∩ / \` operations.
* Each score is an `f64` quotient `numerator as f64 / denominator as f64`
  of machine integers in the source, carried around without ever being
  inspected.  A score is modelled as the exact pair
  `(numerator, denominator) : ℕ × ℕ` (`Score`), and `scoreVal` interprets
  it as the exact rational quotient.  Every quotient relevant to the
  claims below compares against `1`, and for quotients of integers the
  `f64` division result is `≤ 1` (resp. `> 1`) exactly when the rational
  quotient is, so the comparison claims are unaffected by rounding.
* Fallible or out-of-scope collaborators (the distinct reducer, the
  query-graph resolver, the facet store, the R-tree) are passed in as
  explicit function parameters, mirroring the narrow interfaces that the
  source consumes.
* `assert!` / `unwrap` / `expect` aborts are modelled as an explicit
  `panicked` outcome (or `none` for the helpers returning `Option`);
  `debug_assert!` is compiled out of release builds and is modelled as a
  no-op.  The `dbg!` / `println!` statements are no-ops for state.
* The driver's `while` loop is modelled with an explicit fuel parameter
  (`none` meaning the fuel ran out before the loop finished); the source
  relies on the ranking-rule contract for termination.
-/

/-- Model of `RoaringBitmap`: a finite set of document ids. -/
abbrev RB := Finset ℕ

/-- Ascending-order iteration over a bitmap (`RoaringBitmap::iter`).
Defined by filtering an initial segment of `ℕ` so that it evaluates by
kernel reduction; `ascList_eq_sort` below shows it is exactly the
ascending enumeration `Finset.sort (· ≤ ·)`. -/
def RB.ascList (s : RB) : List ℕ :=
  (List.range (s.sup id + 1)).filter (fun i => decide (i ∈ s))

theorem RB.ascList_perm_sort (s : RB) : (RB.ascList s).Perm (s.sort (· ≤ ·)) := by
  apply List.perm_of_nodup_nodup_toFinset_eq
  · exact List.Nodup.filter _ (List.nodup_range _)
  · exact s.sort_nodup _
  · ext a
    simp only [RB.ascList, List.mem_toFinset, List.mem_filter, List.mem_range,
      decide_eq_true_eq, Finset.mem_sort]
    constructor
    · rintro ⟨-, h⟩; exact h
    · intro h
      exact ⟨Nat.lt_succ_of_le (Finset.le_sup (f := id) h), h⟩

theorem RB.ascList_eq_sort (s : RB) : RB.ascList s = s.sort (· ≤ ·) := by
  refine List.eq_of_perm_of_sorted (RB.ascList_perm_sort s) ?_ (s.sort_sorted _)
  exact List.Pairwise.sublist (List.filter_sublist _) (List.pairwise_le_range _)

theorem RB.length_ascList (s : RB) : (RB.ascList s).length = s.card := by
  rw [RB.ascList_eq_sort]; exact s.length_sort _

/-- Output of one `next_bucket` call (`ranking_rules.rs`):
a refined query, the bucket's candidates, and the number of buckets the
rule still expects after this one, in its local numbering. -/
structure RankingRuleOutput (Q : Type) where
  query : Q
  candidates : RB
  remaining_buckets : ℕ
deriving DecidableEq

/-- The ranking-rule interface (`RankingRule` trait): rules are stateful;
`start_iteration` returns the declared total bucket count together with
the updated rule state, `next_bucket` returns `none` when exhausted.
The read-only `SearchContext` accesses of a concrete rule are baked into
the functions at instantiation time. -/
structure RankingRule (σ Q : Type) where
  start_iteration : σ → RB → Q → σ × ℕ
  next_bucket : σ → RB → σ × Option (RankingRuleOutput Q)
  end_iteration : σ → σ

instance {σ Q : Type} : Inhabited (RankingRule σ Q) :=
  ⟨{ start_iteration := fun s _ _ => (s, 0)
     next_bucket := fun s _ => (s, none)
     end_iteration := fun s => s }⟩

/-- A score: the integer numerator/denominator pair whose `f64` quotient
the source computes (e.g. `remaining_buckets as f64 / total_buckets as
f64`). -/
abbrev Score := ℕ × ℕ

/-- The rational value of a score (the exact value of the quotient the
source computes in `f64`). -/
def scoreVal (p : Score) : ℚ := (p.1 : ℚ) / (p.2 : ℚ)

/-- `BucketSortOutput` from `bucket_sort.rs`. -/
structure BucketSortOutput where
  docids : List ℕ
  scores : List Score
  all_candidates : RB
deriving DecidableEq

/-- Result of a full (non-diverging) driver run: either the returned
output or an aborted run (a failed `assert!` or `unwrap`). -/
inductive SortResult
  | ok (out : BucketSortOutput)
  | panicked
deriving DecidableEq

/-- The narrow interface to the distinct reducer (`distinct.rs`, out of
scope): `apply` is `apply_distinct_rule` returning `(remaining, excluded)`
and `single` is `distinct_single_docid`, returning the set of ids to add
to the running exclusion set for one kept docid. -/
structure DistinctCtx where
  apply : RB → RB × RB
  single : ℕ → RB

/-- Driver-level context: the distinct field (with its reducer) when one
is configured, and the rule chain.  All rules share the model state type
`σ`; a heterogeneous chain is obtained by instantiating `σ` with a sum. -/
structure DriverCtx (σ Q : Type) where
  distinct_fid : Option DistinctCtx
  rules : List (RankingRule σ Q)

/-- The subset of driver state threaded through `maybe_add_to_results`
(the `&mut` parameters of the source function). -/
structure AddState where
  valid_docids : List ℕ
  valid_scores : List Score
  all_candidates : RB
  ranking_rule_universes : List RB
  cur_offset : ℕ
deriving DecidableEq

/-- The `for univ in ranking_rule_universes.iter_mut()` loop of
`maybe_add_to_results` (lines 245-248): subtract `excluded` from every
sub-univ, and (inside the same loop body) from `all_candidates`. -/
def subtract_from_universes (excluded : RB) :
    List RB → RB → List RB × RB
  | [], all_candidates => ([], all_candidates)
  | u :: us, all_candidates =>
    let rest := subtract_from_universes excluded us (all_candidates \ excluded)
    ((u \ excluded) :: rest.1, rest.2)

/-- The candidates after the distinct reduction step of
`maybe_add_to_results` (lines 242-252): `apply_distinct_rule`'s
`remaining` field when a distinct field is configured, the original
candidates otherwise. -/
def post_distinct_candidates (distinct_fid : Option DistinctCtx)
    (candidates : RB) : RB :=
  match distinct_fid with
  | some d => (d.apply candidates).1
  | none => candidates

/-- `maybe_add_to_results` (bucket_sort.rs lines 222-296).  Returns
`none` exactly when the `split_at` call of the partial-skip branch would
be out of bounds and panic.  The `length - valid_docids.len()` usize
subtraction is modelled by truncated subtraction; the driver maintains
`valid_docids.len() < length` at every call (the loop guard), where both
agree with the exact subtraction. -/
def maybe_add_to_results (distinct_fid : Option DistinctCtx)
    (from_ length : ℕ) (s : AddState) (candidates0 : RB) (score : Score) :
    Option AddState :=
  -- First apply the distinct rule on the candidates, reducing the universes
  let step1 : RB × List RB × RB :=
    match distinct_fid with
    | some d =>
      let out := d.apply candidates0
      let sub := subtract_from_universes out.2 s.ranking_rule_universes s.all_candidates
      (out.1, sub.1, sub.2)
    | none => (candidates0, s.ranking_rule_universes, s.all_candidates)
  let candidates := step1.1
  let universes := step1.2.1
  let all1 := step1.2.2 ∪ candidates
  -- if the candidates are empty, there is nothing to do
  if candidates = ∅ then
    some { s with ranking_rule_universes := universes, all_candidates := all1 }
  -- if we still haven't reached the first document to return
  else if s.cur_offset < from_ then
    -- and if no document from this bucket can be returned
    if s.cur_offset + candidates.card < from_ then
      -- then just skip the bucket (only the logger observes the skip)
      some { s with
             ranking_rule_universes := universes
             all_candidates := all1
             cur_offset := s.cur_offset + candidates.card }
    else
      -- otherwise skip some of the documents and add some of the rest, by id
      let candidates_vec := RB.ascList candidates
      if from_ - s.cur_offset ≤ candidates_vec.length then
        let rest := candidates_vec.drop (from_ - s.cur_offset)
        let added := rest.take (length - s.valid_docids.length)
        some { s with
               ranking_rule_universes := universes
               all_candidates := all1
               valid_docids := s.valid_docids ++ added
               valid_scores := s.valid_scores ++ List.replicate added.length score
               cur_offset := s.cur_offset + candidates.card }
      else
        none
  else
    -- past the offset already: add some of the documents, up to the limit
    let added := (RB.ascList candidates).take (length - s.valid_docids.length)
    some { s with
           ranking_rule_universes := universes
           all_candidates := all1
           valid_docids := s.valid_docids ++ added
           valid_scores := s.valid_scores ++ List.replicate added.length score
           cur_offset := s.cur_offset + candidates.card }

/-- Per-invocation driver state (`bucket_sort`'s local variables). -/
structure DriverState (σ Q : Type) where
  states : List σ
  universes : List RB
  total_counts : List ℕ
  bucket_counts : List (ℕ × ℕ)
  cur : ℕ
  all_candidates : RB
  valid_docids : List ℕ
  valid_scores : List Score
  cur_offset : ℕ

/-- Result of one iteration of the driver's main loop. -/
inductive StepRes (σ Q : Type)
  | done (r : SortResult)
  | next (d : DriverState σ Q)

/-- Wrapper threading the driver state through `maybe_add_to_results`
(the `maybe_add_to_results!` macro of the source). -/
def call_maybe_add {σ Q : Type} (ctx : DriverCtx σ Q) (from_ length : ℕ)
    (d : DriverState σ Q) (candidates : RB) (score : Score) :
    Option (DriverState σ Q) :=
  (maybe_add_to_results ctx.distinct_fid from_ length
      { valid_docids := d.valid_docids
        valid_scores := d.valid_scores
        all_candidates := d.all_candidates
        ranking_rule_universes := d.universes
        cur_offset := d.cur_offset }
      candidates score).map fun a =>
    { d with
      valid_docids := a.valid_docids
      valid_scores := a.valid_scores
      all_candidates := a.all_candidates
      universes := a.ranking_rule_universes
      cur_offset := a.cur_offset }

/-- The `back!` macro (bucket_sort.rs lines 91-111): check the current
sub-univ is exhausted, clear it, notify the rule, then finish the
whole search (at rule 0) or pop one level. -/
def back_proc {σ Q : Type} [Inhabited σ] (ctx : DriverCtx σ Q)
    (d : DriverState σ Q) : StepRes σ Q :=
  if d.universes.getD d.cur ∅ = ∅ then
    let st := (ctx.rules.getD d.cur default).end_iteration (d.states.getD d.cur default)
    let d2 : DriverState σ Q :=
      { d with
        universes := d.universes.set d.cur ∅
        states := d.states.set d.cur st }
    if d2.cur = 0 then
      .done (.ok { docids := d2.valid_docids
                   scores := d2.valid_scores
                   all_candidates := d2.all_candidates })
    else
      .next { d2 with cur := d2.cur - 1 }
  else
    -- "The ranking rule ... did not sort its bucket exhaustively"
    .done .panicked

/-- One iteration of the driver's main `while` loop (bucket_sort.rs lines
139-214), including the loop guard `valid_docids.len() < length` (a
failed guard returns the final output, line 216). -/
def loop_body {σ Q : Type} [Inhabited σ] (ctx : DriverCtx σ Q)
    (from_ length : ℕ) (d : DriverState σ Q) : StepRes σ Q :=
  if length ≤ d.valid_docids.length then
    .done (.ok { docids := d.valid_docids
                 scores := d.valid_scores
                 all_candidates := d.all_candidates })
  else
    let lt := d.bucket_counts.getD d.cur (0, 0)
    if (d.universes.getD d.cur ∅).card ≤ 1 then
      -- zero or one element: flush the sub-univ and go back to the parent
      let bucket := d.universes.getD d.cur ∅
      let d1 : DriverState σ Q := { d with universes := d.universes.set d.cur ∅ }
      match call_maybe_add ctx from_ length d1 bucket (lt.1, lt.2) with
      | none => .done .panicked
      | some d2 => back_proc ctx d2
    else if lt.1 = 0 then
      -- `leftover_buckets.checked_sub(1).unwrap()`
      .done .panicked
    else
      let tbc := d.total_counts.getD d.cur 0
      -- remove one bucket from the leftovers, then multiply the numerator
      -- and the total by the total count for the rule
      let remaining0 := (lt.1 - 1) * tbc
      let total_g := lt.2 * tbc
      match (ctx.rules.getD d.cur default).next_bucket
          (d.states.getD d.cur default) (d.universes.getD d.cur ∅) with
      | (st, none) => back_proc ctx { d with states := d.states.set d.cur st }
      | (st, some nb) =>
        -- add the remaining buckets from the ranking rule
        let remaining := remaining0 + nb.remaining_buckets
        let d1 : DriverState σ Q :=
          { d with
            states := d.states.set d.cur st
            universes := d.universes.set d.cur
              ((d.universes.getD d.cur ∅) \ nb.candidates) }
        if d1.cur = ctx.rules.length - 1 ∨ nb.candidates.card ≤ 1
            ∨ d1.cur_offset + nb.candidates.card < from_ then
          match call_maybe_add ctx from_ length d1 nb.candidates
              (remaining, total_g) with
          | none => .done .panicked
          | some d2 => .next d2
        else
          let next_i := d1.cur + 1
          let su := (ctx.rules.getD next_i default).start_iteration
            (d1.states.getD next_i default) nb.candidates nb.query
          .next { d1 with
                  cur := next_i
                  universes := d1.universes.set next_i nb.candidates
                  states := d1.states.set next_i su.1
                  total_counts := d1.total_counts.set next_i su.2
                  bucket_counts := d1.bucket_counts.set next_i (remaining, total_g) }

/-- The driver's main loop, fuelled. -/
def bucket_sort_loop {σ Q : Type} [Inhabited σ] (ctx : DriverCtx σ Q)
    (from_ length : ℕ) : ℕ → DriverState σ Q → Option SortResult
  | 0, _ => none
  | fuel + 1, d =>
    match loop_body ctx from_ length d with
    | .done r => some r
    | .next d2 => bucket_sort_loop ctx from_ length fuel d2

/-- Initial driver state (bucket_sort.rs lines 72-116): rule 0 started on
the whole univ, every global bucket-count pair initialised to
`(1, 1)`. -/
def bucket_sort_init {σ Q : Type} [Inhabited σ] (ctx : DriverCtx σ Q)
    (istates : List σ) (query : Q) (univ : RB) : DriverState σ Q :=
  let su := (ctx.rules.getD 0 default).start_iteration
    (istates.getD 0 default) univ query
  { states := istates.set 0 su.1
    universes := (List.replicate ctx.rules.length (∅ : RB)).set 0 univ
    total_counts := (List.replicate ctx.rules.length 0).set 0 su.2
    bucket_counts := List.replicate ctx.rules.length (1, 1)
    cur := 0
    all_candidates := univ
    valid_docids := []
    valid_scores := []
    cur_offset := 0 }

/-- The `ranking_rules.is_empty() && distinct_fid.is_some()` fast-path
loop of `bucket_sort` (lines 45-54): walk the univ in ascending id
order, keeping representatives until `from + length` of them exist. -/
def distinct_loop (dctx : DistinctCtx) (bound : ℕ) :
    List ℕ → List ℕ → RB → List ℕ × RB
  | [], results, excluded => (results, excluded)
  | docid :: rest, results, excluded =>
    if bound ≤ results.length then (results, excluded)
    else if docid ∈ excluded then distinct_loop dctx bound rest results excluded
    else distinct_loop dctx bound rest (results ++ [docid])
      (excluded ∪ dctx.single docid)

/-- The whole empty-rule-chain-with-distinct fast path of `bucket_sort`
(lines 42-61). -/
def distinct_fast_path (dctx : DistinctCtx) (univ : RB)
    (from_ length : ℕ) : BucketSortOutput :=
  let rs := distinct_loop dctx (from_ + length) (RB.ascList univ) [] ∅
  let all := (univ \ rs.2) ∪ rs.1.toFinset
  { docids := rs.1, scores := List.replicate rs.1.length (1, 1), all_candidates := all }

/-- `bucket_sort` (bucket_sort.rs lines 15-217): the three fast paths
followed by the fuelled main loop. -/
def bucket_sort {σ Q : Type} [Inhabited σ] (ctx : DriverCtx σ Q)
    (istates : List σ) (query : Q) (univ : RB)
    (from_ length fuel : ℕ) : Option SortResult :=
  if univ.card < from_ then
    some (.ok { docids := [], scores := [], all_candidates := univ })
  else if ctx.rules.isEmpty then
    match ctx.distinct_fid with
    | some dctx => some (.ok (distinct_fast_path dctx univ from_ length))
    | none =>
      let docids := ((RB.ascList univ).drop from_).take length
      some (.ok { docids := docids
                  scores := List.replicate docids.length (1, 1)
                  all_candidates := univ })
  else
    bucket_sort_loop ctx from_ length fuel (bucket_sort_init ctx istates query univ)

/-!
The Words ranking rule (`words.rs`).  The externals — the query-graph
type, its removal-order computation, node removal and the query-graph
resolver — are out-of-scope collaborators passed in as parameters:
`G` is `QueryGraph`, `N` is `QueryNode`, node sets (`SmallBitmap`) appear
as the `List N` produced by `.iter().collect::<Vec<_>>()`.
-/

/-- `TermsMatchingStrategy` (the two variants used by `words.rs`). -/
inductive TermsMatchingStrategy
  | last
  | all
deriving DecidableEq

/-- The out-of-scope collaborators of the Words rule. -/
structure WordsExternals (G N : Type) where
  removal_order_for_terms_matching_strategy_last : G → List (List N)
  remove_nodes_keep_edges : G → List N → G
  compute_query_graph_docids : G → RB → RB

/-- The `Words` struct (words.rs lines 11-16). -/
structure WordsState (G N : Type) where
  exhausted : Bool
  query_graph : Option G
  nodes_to_remove : List (List N)
  terms_matching_strategy : TermsMatchingStrategy
deriving DecidableEq

/-- `Words::new` (words.rs lines 18-25). -/
def Words.new {G N : Type} (strategy : TermsMatchingStrategy) : WordsState G N :=
  { exhausted := true
    query_graph := none
    nodes_to_remove := []
    terms_matching_strategy := strategy }

/-- `Words::start_iteration` (words.rs lines 32-52): store the graph,
compute the removal stack per the strategy (reversed for `Last`, empty
for `All`), and declare `nodes_to_remove.len() + 1` total buckets. -/
def Words.start_iteration {G N : Type} (ext : WordsExternals G N)
    (s : WordsState G N) (_univ : RB) (parent_query_graph : G) :
    WordsState G N × ℕ :=
  let ntr :=
    match s.terms_matching_strategy with
    | .last => (ext.removal_order_for_terms_matching_strategy_last parent_query_graph).reverse
    | .all => []
  ({ s with
     exhausted := false
     query_graph := some parent_query_graph
     nodes_to_remove := ntr }, ntr.length + 1)

/-- `Words::next_bucket` (words.rs lines 54-81): resolve the current
graph, pop one removal set from the end of the stack (`Vec::pop`) and
apply it, and report `nodes_to_remove.len() + 2` remaining buckets
(measured after the pop).  The source panics when `query_graph` is
`None` and not exhausted; that state is unreachable after
`start_iteration` and is mapped to `(s, none)` here. -/
def Words.next_bucket {G N : Type} (ext : WordsExternals G N)
    (s : WordsState G N) (univ : RB) :
    WordsState G N × Option (RankingRuleOutput G) :=
  if s.exhausted then (s, none)
  else
    match s.query_graph with
    | none => (s, none)
    | some query_graph =>
      let this_bucket := ext.compute_query_graph_docids query_graph univ
      let child_query_graph := query_graph
      let s2 : WordsState G N :=
        match s.nodes_to_remove.getLast? with
        | none => { s with exhausted := true }
        | some nodes_to_remove =>
          { s with
            nodes_to_remove := s.nodes_to_remove.dropLast
            query_graph := some (ext.remove_nodes_keep_edges query_graph nodes_to_remove) }
      (s2, some { query := child_query_graph
                  candidates := this_bucket
                  remaining_buckets := s2.nodes_to_remove.length + 2 })

/-- `Words::end_iteration` (words.rs lines 83-91). -/
def Words.end_iteration {G N : Type} (s : WordsState G N) : WordsState G N :=
  { s with exhausted := true, nodes_to_remove := [], query_graph := none }

/-- The Words rule packaged behind the `RankingRule` interface. -/
def wordsRule {G N : Type} (ext : WordsExternals G N) :
    RankingRule (WordsState G N) G :=
  { start_iteration := fun s u q => Words.start_iteration ext s u q
    next_bucket := fun s u => Words.next_bucket ext s u
    end_iteration := Words.end_iteration }

instance {G N : Type} : Inhabited (WordsState G N) :=
  ⟨Words.new .all⟩

/-!
The GeoSort ranking rule (`geo_sort.rs`).  Out-of-scope collaborators
are abstracted: `RT` is the `RTree<GeoPoint>` type, `P` the `[f64; 2]`
lat/lng pair, `X` the 3-d point produced by `lat_lng_to_xyz`.  The
`f64` coordinate arithmetic itself (`lat_lng_to_xyz`, `opposite_of`,
`distance_between_two_points as usize`) is kept abstract, as none of the
claims below depends on coordinate values.
-/

/-- `Strategy` (geo_sort.rs lines 48-52). -/
inductive GeoStrategy
  | alwaysIterative (cacheSize : ℕ)
  | alwaysRtree (cacheSize : ℕ)
  | dynamic (cacheSize : ℕ)
deriving DecidableEq

/-- `Strategy::use_rtree` (geo_sort.rs lines 61-67). -/
def GeoStrategy.use_rtree : GeoStrategy → ℕ → Bool
  | .alwaysIterative _, _ => false
  | .alwaysRtree _, _ => true
  | .dynamic i, candidates => i ≤ candidates

/-- `Strategy::cache_size` (geo_sort.rs lines 69-73). -/
def GeoStrategy.cache_size : GeoStrategy → ℕ
  | .alwaysIterative i => i
  | .alwaysRtree i => i
  | .dynamic i => i

/-- The context consumed by the GeoSort rule: the persisted R-tree blob,
its nearest-neighbour iterator (as the docid sequence it yields from a
given 3-d point), the coordinate conversions, the per-document facet
coordinates, the `distance_between_two_points(..) as usize` sort key and
the two field ids resolved from the field-name map. -/
structure GeoCtx (RT P X : Type) where
  index_rtree : Option RT
  nearest_iter : RT → X → List ℕ
  lat_lng_to_xyz : P → X
  opposite_of : P → P
  coords : ℕ → P
  distance_key : P → P → ℕ
  fid_lat : Option ℕ
  fid_lng : Option ℕ

/-- The `GeoSort` struct (geo_sort.rs lines 76-87); the deque
`cached_sorted_docids` is a list whose head is the deque front. -/
structure GeoState (Q RT P : Type) where
  query : Option Q
  strategy : GeoStrategy
  ascending : Bool
  point : P
  field_ids : Option (ℕ × ℕ)
  rtree : Option RT
  cached_sorted_docids : List ℕ
  geo_candidates : RB
deriving DecidableEq

/-- `GeoSort::fill_buffer` (geo_sort.rs lines 110-186).  Returns `none`
for the `.expect("geo candidates but no rtree")` panic.  The push loop
stops after the push that reaches `cache_size`, hence appends
`max (cache_size - len) 1` matching ids when any match (modelled by
`take`); descending pushes to the deque front, i.e. prepends the
reversed sequence.  The iterative branch reads every candidate's
coordinates, sorts by the cached distance key, and appends them all. -/
def GeoSort.fill_buffer {Q RT P X : Type} (ctx : GeoCtx RT P X)
    (g : GeoState Q RT P) : Option (GeoState Q RT P) :=
  let use_rt := g.strategy.use_rtree g.geo_candidates.card
  let rt_lookup : Option (Option RT × GeoState Q RT P) :=
    if use_rt then
      match g.rtree with
      | some rtree => some (some rtree, g)
      | none =>
        match ctx.index_rtree with
        | some rtree => some (some rtree, { g with rtree := some rtree })
        | none => none
    else some (none, g)
  match rt_lookup with
  | none => none
  | some (ort, g) =>
    let cache_size := g.strategy.cache_size
    match ort with
    | some rtree =>
      if g.ascending then
        let point := ctx.lat_lng_to_xyz g.point
        let appended := ((ctx.nearest_iter rtree point).filter
            (fun i => i ∈ g.geo_candidates)).take
          (max (cache_size - g.cached_sorted_docids.length) 1)
        some { g with cached_sorted_docids := g.cached_sorted_docids ++ appended }
      else
        -- desc: walk from the antipodal point and push to the deque front
        let point := ctx.lat_lng_to_xyz (ctx.opposite_of g.point)
        let appended := ((ctx.nearest_iter rtree point).filter
            (fun i => i ∈ g.geo_candidates)).take
          (max (cache_size - g.cached_sorted_docids.length) 1)
        some { g with cached_sorted_docids := appended.reverse ++ g.cached_sorted_docids }
    | none =>
      -- the iterative version
      let documents := (RB.ascList g.geo_candidates).map fun id => (id, ctx.coords id)
      let sorted := documents.mergeSort fun a b =>
        ctx.distance_key g.point a.2 ≤ ctx.distance_key g.point b.2
      some { g with cached_sorted_docids :=
             g.cached_sorted_docids ++ sorted.map Prod.fst }

/-- `GeoSort::start_iteration` (geo_sort.rs lines 194-216): intersect
the geo candidates with the sub-universe; if empty declare one bucket,
otherwise resolve the field ids and fill the buffer.  `none` models the
`assert!(self.query.is_none())` and `.expect(..)` panics. -/
def GeoSort.start_iteration {Q RT P X : Type} (ctx : GeoCtx RT P X)
    (g : GeoState Q RT P) (univ : RB) (query : Q) :
    Option (GeoState Q RT P × ℕ) :=
  if g.query.isSome then none
  else
    let g := { g with query := some query, geo_candidates := g.geo_candidates ∩ univ }
    if g.geo_candidates = ∅ then some (g, 1)
    else
      match ctx.fid_lat, ctx.fid_lng with
      | some lat, some lng =>
        match GeoSort.fill_buffer ctx { g with field_ids := some (lat, lng) } with
        | some g2 => some (g2, 1)
        | none => none
      | _, _ => none

/-- The cache-popping loop of `GeoSort::next_bucket` (lines 245-253):
pop ids (this scans from the side already chosen by the caller) and skip
those no longer in `geo_candidates`; return the first hit together with
the remaining cache beyond it. -/
def cache_pop_search (geo_candidates : RB) : List ℕ → Option (ℕ × List ℕ)
  | [] => none
  | id :: rest =>
    if id ∈ geo_candidates then some (id, rest)
    else cache_pop_search geo_candidates rest

/-- `GeoSort::next_bucket` (geo_sort.rs lines 219-259).  The `fuel`
argument bounds the source's recursion after a refill; `none` models
the `assert!(universe.len() > 1)` and `unwrap()` panics as well as fuel
exhaustion.  Ascending pops from the deque front, descending from the
back (modelled by scanning the reversed list). -/
def GeoSort.next_bucket {Q RT P X : Type} (ctx : GeoCtx RT P X) :
    ℕ → GeoState Q RT P → RB →
    Option (GeoState Q RT P × Option (RankingRuleOutput Q))
  | 0, _, _ => none
  | fuel + 1, g, univ =>
    if univ.card ≤ 1 then none
    else
      match g.query with
      | none => none
      | some query =>
        let g := { g with geo_candidates := g.geo_candidates ∩ univ }
        if g.geo_candidates = ∅ then
          some (g, some { query := query, candidates := univ, remaining_buckets := 1 })
        else if g.ascending then
          match cache_pop_search g.geo_candidates g.cached_sorted_docids with
          | some (id, rest) =>
            some ({ g with cached_sorted_docids := rest },
                  some { query := query, candidates := {id}, remaining_buckets := 1 })
          | none =>
            match GeoSort.fill_buffer ctx { g with cached_sorted_docids := [] } with
            | some g2 => GeoSort.next_bucket ctx fuel g2 univ
            | none => none
        else
          match cache_pop_search g.geo_candidates g.cached_sorted_docids.reverse with
          | some (id, rest) =>
            some ({ g with cached_sorted_docids := rest.reverse },
                  some { query := query, candidates := {id}, remaining_buckets := 1 })
          | none =>
            match GeoSort.fill_buffer ctx { g with cached_sorted_docids := [] } with
            | some g2 => GeoSort.next_bucket ctx fuel g2 univ
            | none => none

/-- `GeoSort::end_iteration` (geo_sort.rs lines 261-266): clear the
query and the cache; the R-tree is deliberately kept. -/
def GeoSort.end_iteration {Q RT P : Type} (g : GeoState Q RT P) :
    GeoState Q RT P :=
  { g with query := none, cached_sorted_docids := [] }

/-!
Small helpers: projections for stating concrete driver runs, and lemmas
about `List.getD` / `List.set` used by the driver proofs.
-/

/-- Projection of a driver result onto the returned docids. -/
def run_docids : Option SortResult → Option (List ℕ)
  | some (.ok out) => some out.docids
  | _ => none

/-- Projection of a driver result onto the returned scores. -/
def run_scores : Option SortResult → Option (List Score)
  | some (.ok out) => some out.scores
  | _ => none

/-- Projection of a driver result onto the returned candidate set. -/
def run_all_candidates : Option SortResult → Option RB
  | some (.ok out) => some out.all_candidates
  | _ => none

theorem getD_set_self {α : Type} {l : List α} {i : ℕ} (h : i < l.length)
    (a d : α) : (l.set i a).getD i d = a := by
  simp [List.getD, List.getElem?_set_self', h]

theorem getD_set_ne {α : Type} {l : List α} {i j : ℕ} (h : i ≠ j)
    (a d : α) : (l.set i a).getD j d = l.getD j d := by
  simp [List.getD, List.getElem?_set_ne h]

theorem getD_replicate {α : Type} {n i : ℕ} (h : i < n) (a d : α) :
    (List.replicate n a).getD i d = a := by
  simp [List.getD, List.getElem?_replicate, h]

theorem length_subtract_from_universes (excluded : RB) :
    ∀ (us : List RB) (ac : RB),
      (subtract_from_universes excluded us ac).1.length = us.length
  | [], _ => rfl
  | _ :: us, ac => by
    simp [subtract_from_universes, length_subtract_from_universes excluded us]

/-- Behaviour of `maybe_add_to_results` needed by the driver proofs:
the appended scores are copies of the bucket score, the universes list
keeps its length, `cur_offset` advances by exactly the post-distinct
candidate count, a bucket fully below the requested window leaves the
accumulated results untouched, and without a distinct field the
universes are untouched and the candidates are unioned into
`all_candidates`. -/
theorem maybe_add_spec (distinct_fid : Option DistinctCtx) (from_ length : ℕ)
    (s : AddState) (cand : RB) (score : Score) (a : AddState)
    (h : maybe_add_to_results distinct_fid from_ length s cand score = some a) :
    (∃ k, a.valid_scores = s.valid_scores ++ List.replicate k score) ∧
    a.ranking_rule_universes.length = s.ranking_rule_universes.length ∧
    a.cur_offset = s.cur_offset + (post_distinct_candidates distinct_fid cand).card ∧
    (s.cur_offset < from_ → s.cur_offset + (post_distinct_candidates distinct_fid cand).card < from_ →
      a.valid_docids = s.valid_docids ∧ a.valid_scores = s.valid_scores) ∧
    (distinct_fid = none →
      a.ranking_rule_universes = s.ranking_rule_universes ∧
      a.all_candidates = s.all_candidates ∪ cand) := by
  cases distinct_fid with
  | none =>
    simp only [maybe_add_to_results, post_distinct_candidates] at h ⊢
    split at h
    · rename_i hemp
      cases h
      refine ⟨⟨0, by simp⟩, rfl, by simp [hemp], fun _ _ => ⟨rfl, rfl⟩, fun _ => ⟨rfl, rfl⟩⟩
    · split at h
      · split at h
        · cases h
          exact ⟨⟨0, by simp⟩, rfl, rfl, fun _ _ => ⟨rfl, rfl⟩, fun _ => ⟨rfl, rfl⟩⟩
        · split at h
          · cases h
            rename_i hoff hskip _
            refine ⟨⟨_, rfl⟩, rfl, rfl, fun _ hlt => absurd hlt hskip, fun _ => ⟨rfl, rfl⟩⟩
          · exact absurd h (by simp)
      · cases h
        rename_i hoff
        refine ⟨⟨_, rfl⟩, rfl, rfl, fun hlt _ => absurd hlt hoff, fun _ => ⟨rfl, rfl⟩⟩
  | some dctx =>
    simp only [maybe_add_to_results, post_distinct_candidates] at h ⊢
    split at h
    · rename_i hemp
      cases h
      refine ⟨⟨0, by simp⟩, by simp [length_subtract_from_universes], by simp [hemp],
        fun _ _ => ⟨rfl, rfl⟩, fun hn => by cases hn⟩
    · split at h
      · split at h
        · cases h
          exact ⟨⟨0, by simp⟩, by simp [length_subtract_from_universes], rfl,
            fun _ _ => ⟨rfl, rfl⟩, fun hn => by cases hn⟩
        · split at h
          · cases h
            rename_i hoff hskip _
            refine ⟨⟨_, rfl⟩, by simp [length_subtract_from_universes], rfl,
              fun _ hlt => absurd hlt hskip, fun hn => by cases hn⟩
          · exact absurd h (by simp)
      · cases h
        rename_i hoff
        refine ⟨⟨_, rfl⟩, by simp [length_subtract_from_universes], rfl,
          fun hlt _ => absurd hlt hoff, fun hn => by cases hn⟩

/-- `call_maybe_add` transcribed to driver-state level: the rule states,
counts and current index are untouched; the other fields behave as in
`maybe_add_spec`. -/
theorem call_maybe_add_spec {σ Q : Type} (ctx : DriverCtx σ Q)
    (from_ length : ℕ) (d : DriverState σ Q) (cand : RB) (score : Score)
    (d2 : DriverState σ Q)
    (h : call_maybe_add ctx from_ length d cand score = some d2) :
    d2.states = d.states ∧ d2.total_counts = d.total_counts ∧
    d2.bucket_counts = d.bucket_counts ∧ d2.cur = d.cur ∧
    d2.universes.length = d.universes.length ∧
    (∃ k, d2.valid_scores = d.valid_scores ++ List.replicate k score) ∧
    (ctx.distinct_fid = none → d2.universes = d.universes ∧
      d2.all_candidates = d.all_candidates ∪ cand) := by
  rw [call_maybe_add, Option.map_eq_some'] at h
  obtain ⟨a, ha, rfl⟩ := h
  obtain ⟨⟨k, hk⟩, hlen, hoff, hskip, hnone⟩ := maybe_add_spec _ _ _ _ _ _ _ ha
  refine ⟨rfl, rfl, rfl, rfl, hlen, ⟨k, hk⟩, fun hd => ?_⟩
  obtain ⟨h1, h2⟩ := hnone hd
  exact ⟨h1, h2⟩

/-!
Claim theorems.
-/

/-- Claim C8: `GeoSort::end_iteration` empties the cached-sorted-docids
buffer and clears the stored query, and leaves every other field of the
rule state unchanged — the memoised R-tree, the point, the ascending
flag, the strategy, the resolved field ids and the (already intersected)
geo-candidates set are not modified. -/
theorem c8_geo_end_iteration_frame {Q RT P : Type} (g : GeoState Q RT P) :
    (GeoSort.end_iteration g).cached_sorted_docids = [] ∧
    (GeoSort.end_iteration g).query = none ∧
    (GeoSort.end_iteration g).rtree = g.rtree ∧
    (GeoSort.end_iteration g).point = g.point ∧
    (GeoSort.end_iteration g).ascending = g.ascending ∧
    (GeoSort.end_iteration g).strategy = g.strategy ∧
    (GeoSort.end_iteration g).field_ids = g.field_ids ∧
    (GeoSort.end_iteration g).geo_candidates = g.geo_candidates :=
  ⟨rfl, rfl, rfl, rfl, rfl, rfl, rfl, rfl⟩

/-- Claim C10: in `maybe_add_to_results`, the partial-skip branch splits
the ascending candidate list at index `from - cur_offset`; under the
branch's guards (`cur_offset < from` and not `cur_offset + |candidates| <
from`) that index never exceeds the number of candidates, so the
`split_at` call — the only indexing in the function that could be out of
bounds — never panics: the function returns on every input. -/
theorem c10_maybe_add_split_in_bounds (distinct_fid : Option DistinctCtx)
    (from_ length : ℕ) (s : AddState) (candidates0 : RB) (score : Score) :
    (maybe_add_to_results distinct_fid from_ length s candidates0 score).isSome = true := by
  rw [maybe_add_to_results.eq_def]
  split <;>
  · dsimp only
    split_ifs with h1 h2 h3 h4 <;> try rfl
    rw [RB.length_ascList] at h4
    omega

/-- Claim C4: in every branch of `maybe_add_to_results` — including the
branch that skips the whole bucket — `cur_offset` is advanced by the
post-distinct candidate count, never by the pre-distinct count, and the
skip comparison `cur_offset + |candidates| < from` is itself evaluated on
the post-distinct candidates (a skipped bucket adds nothing to the
accumulated results). -/
theorem c4_cur_offset_advances_post_distinct (distinct_fid : Option DistinctCtx)
    (from_ length : ℕ) (s : AddState) (candidates0 : RB) (score : Score)
    (a : AddState)
    (h : maybe_add_to_results distinct_fid from_ length s candidates0 score = some a) :
    a.cur_offset = s.cur_offset +
      (post_distinct_candidates distinct_fid candidates0).card ∧
    (s.cur_offset < from_ →
      s.cur_offset + (post_distinct_candidates distinct_fid candidates0).card < from_ →
      a.valid_docids = s.valid_docids ∧ a.valid_scores = s.valid_scores) := by
  obtain ⟨-, -, hoff, hskip, -⟩ := maybe_add_spec _ _ _ _ _ _ _ h
  exact ⟨hoff, hskip⟩

/-- Claim C3: `Words::start_iteration` declares a total bucket count of
`|removal stack| + 1` (for the stack it just computed and stored), hence
exactly `1` under the `All` strategy, while every bucket emitted by
`next_bucket` reports `remaining_buckets` equal to the length of the
removal stack left after the pop, plus `2`. -/
theorem c3_words_bucket_counts {G N : Type} (ext : WordsExternals G N)
    (s : WordsState G N) (univ : RB) (g : G) :
    ((Words.start_iteration ext s univ g).2 =
      (Words.start_iteration ext s univ g).1.nodes_to_remove.length + 1) ∧
    (s.terms_matching_strategy = .all → (Words.start_iteration ext s univ g).2 = 1) ∧
    (∀ s2 out, Words.next_bucket ext s univ = (s2, some out) →
      out.remaining_buckets = s2.nodes_to_remove.length + 2) := by
  refine ⟨rfl, fun hall => ?_, fun s2 out h => ?_⟩
  · simp [Words.start_iteration, hall]
  · rw [Words.next_bucket.eq_def] at h
    split at h
    · cases h
    · split at h
      · cases h
      · dsimp only at h
        cases h
        rfl

/-- Query-graph externals for a one-node graph matching the whole
universe: no removal order, node removal is the identity, and the
resolver returns the given universe. -/
def extU : WordsExternals Unit Unit :=
  { removal_order_for_terms_matching_strategy_last := fun _ => []
    remove_nodes_keep_edges := fun g _ => g
    compute_query_graph_docids := fun _ u => u }

/-- A freshly started Words state under the `All` strategy. -/
def wordsW : WordsState Unit Unit :=
  { exhausted := false, query_graph := some (), nodes_to_remove := [],
    terms_matching_strategy := .all }

theorem c3_words_bucket_counts_witness :
    ((Words.start_iteration extU wordsW ∅ ()).2 =
      (Words.start_iteration extU wordsW ∅ ()).1.nodes_to_remove.length + 1) ∧
    ((Words.start_iteration extU wordsW ∅ ()).2 = 1) ∧
    ((⟨(), {3,4}, 2⟩ : RankingRuleOutput Unit).remaining_buckets =
      ({ wordsW with exhausted := true } : WordsState Unit Unit).nodes_to_remove.length + 2) :=
  ⟨(c3_words_bucket_counts extU wordsW ∅ ()).1,
   (c3_words_bucket_counts extU wordsW ∅ ()).2.1 rfl,
   (c3_words_bucket_counts extU wordsW ({3,4} : RB) ()).2.2
     { wordsW with exhausted := true } ⟨(), {3,4}, 2⟩ (by decide)⟩

/-- Distinct reducer keeping everything but document 2. -/
def dctxW : DistinctCtx := { apply := fun c => (c \ {2}, {2}), single := fun _ => ∅ }

/-- Empty accumulation state. -/
def addStateW : AddState :=
  { valid_docids := [], valid_scores := [], all_candidates := ∅,
    ranking_rule_universes := [], cur_offset := 0 }

/-- The state `maybe_add_to_results` produces from `addStateW` for the
bucket `{1,2,3}` under `dctxW` with `from = 5`: the whole bucket is
below the window, and `cur_offset` advances by the two post-distinct
candidates only. -/
def addStateW2 : AddState :=
  { valid_docids := [], valid_scores := [], all_candidates := {1,3},
    ranking_rule_universes := [], cur_offset := 2 }

theorem c4_cur_offset_witness :
    (maybe_add_to_results (some dctxW) 5 3 addStateW ({1,2,3} : RB) (1,1) =
      some addStateW2) ∧
    (addStateW2.cur_offset = addStateW.cur_offset +
      (post_distinct_candidates (some dctxW) {1,2,3}).card ∧
     addStateW2.valid_docids = addStateW.valid_docids ∧
     addStateW2.valid_scores = addStateW.valid_scores) :=
  ⟨by decide,
   ⟨(c4_cur_offset_advances_post_distinct (some dctxW) 5 3 addStateW {1,2,3} (1,1)
      addStateW2 (by decide)).1,
    (c4_cur_offset_advances_post_distinct (some dctxW) 5 3 addStateW {1,2,3} (1,1)
      addStateW2 (by decide)).2 (by decide) (by decide)⟩⟩

/-- Claim C6: whenever `|universe| < from`, `bucket_sort` returns
successfully with empty docids and scores and `all_candidates` equal to
the input universe — uniformly in the rule chain, which is never
consulted. -/
theorem c6_small_universe_fast_path {σ Q : Type} [Inhabited σ]
    (ctx : DriverCtx σ Q) (istates : List σ) (query : Q) (univ : RB)
    (from_ length fuel : ℕ) (h : univ.card < from_) :
    bucket_sort ctx istates query univ from_ length fuel =
      some (.ok { docids := [], scores := [], all_candidates := univ }) := by
  rw [bucket_sort]
  rw [if_pos h]

theorem c6_small_universe_witness :
    ({1} : RB).card < 2 ∧
    bucket_sort (⟨none, []⟩ : DriverCtx Unit Unit) [] () ({1} : RB) 2 5 3 =
      some (.ok { docids := [], scores := [], all_candidates := {1} }) :=
  ⟨by decide,
   c6_small_universe_fast_path (⟨none, []⟩ : DriverCtx Unit Unit) [] () {1} 2 5 3 (by decide)⟩

/-- Claim C7: `GeoSort::next_bucket`, after re-intersecting the stored
geo candidates with the given universe: when the intersection is empty
it emits the whole universe as a single bucket with
`remaining_buckets = 1`; when it is non-empty and popping the cache —
from the front if ascending, from the back if descending, skipping ids
outside the intersection — yields an id, it emits that id as a singleton
bucket with `remaining_buckets = 1`. -/
theorem c7_geo_next_bucket {Q RT P X : Type} (ctx : GeoCtx RT P X)
    (g : GeoState Q RT P) (univ : RB) (q : Q) (fuel : ℕ)
    (hcard : 1 < univ.card) (hq : g.query = some q) :
    (g.geo_candidates ∩ univ = ∅ →
      GeoSort.next_bucket ctx (fuel + 1) g univ =
        some ({ g with geo_candidates := g.geo_candidates ∩ univ },
          some { query := q, candidates := univ, remaining_buckets := 1 })) ∧
    (∀ id rest, g.geo_candidates ∩ univ ≠ ∅ →
      cache_pop_search (g.geo_candidates ∩ univ)
        (if g.ascending then g.cached_sorted_docids else g.cached_sorted_docids.reverse) =
        some (id, rest) →
      GeoSort.next_bucket ctx (fuel + 1) g univ =
        some ({ g with
                geo_candidates := g.geo_candidates ∩ univ
                cached_sorted_docids := if g.ascending then rest else rest.reverse },
          some { query := q, candidates := {id}, remaining_buckets := 1 })) := by
  have h1 : ¬ (univ.card ≤ 1) := by omega
  constructor
  · intro hempty
    rw [GeoSort.next_bucket.eq_def]
    dsimp only
    rw [if_neg h1, hq]
    dsimp only
    rw [if_pos hempty]
  · intro id rest hne hfind
    rw [GeoSort.next_bucket.eq_def]
    dsimp only
    rw [if_neg h1, hq]
    dsimp only
    rw [if_neg hne]
    cases hga : g.ascending with
    | true =>
      rw [hga] at hfind
      simp only [reduceIte] at hfind ⊢
      rw [hfind]
    | false =>
      rw [hga] at hfind
      rw [if_neg Bool.false_ne_true] at hfind
      rw [if_neg Bool.false_ne_true]
      rw [hfind]
      rfl

/-- A trivial geo context over unit types. -/
def ctxG : GeoCtx Unit Unit Unit :=
  { index_rtree := none
    nearest_iter := fun _ _ => []
    lat_lng_to_xyz := fun _ => ()
    opposite_of := fun p => p
    coords := fun _ => ()
    distance_key := fun _ _ => 0
    fid_lat := none
    fid_lng := none }

/-- A mid-iteration geo state: ascending, two cached ids of which only
`7` is still a geo candidate. -/
def geoW : GeoState Unit Unit Unit :=
  { query := some ()
    strategy := .dynamic 1000
    ascending := true
    point := ()
    field_ids := none
    rtree := none
    cached_sorted_docids := [5, 7]
    geo_candidates := {7, 9} }

theorem c7_geo_next_bucket_witness :
    (1 < ({7,9,42} : RB).card) ∧
    GeoSort.next_bucket ctxG (3 + 1) geoW ({7,9,42} : RB) =
      some ({ geoW with
              geo_candidates := geoW.geo_candidates ∩ {7,9,42}
              cached_sorted_docids := if geoW.ascending then [] else List.reverse [] },
        some { query := (), candidates := {7}, remaining_buckets := 1 }) :=
  ⟨by decide,
   (c7_geo_next_bucket ctxG geoW {7,9,42} () 3 (by decide) rfl).2 7 []
     (by decide) (by decide)⟩

/-- Claim C1: the driver's global score bookkeeping.  At rule 0 the
inherited pair is the initial `(1, 1)`; when rule `i` with inherited
pair `(leftover, total)` and declared total bucket count `tbc` emits a
bucket with locally-declared `remaining_buckets = r`, the bucket's
global fraction is `(leftover - 1) * tbc + r` over `total * tbc`: on
descent exactly this pair is stored for the child rule to inherit, and
on a flush it is the score assigned to every document of the bucket. -/
theorem c1_global_bucket_fraction {σ Q : Type} [Inhabited σ]
    (ctx : DriverCtx σ Q) (istates : List σ) (query : Q) (univ : RB)
    (from_ length : ℕ) (d : DriverState σ Q)
    (l t tbc : ℕ) (st : σ) (nb : RankingRuleOutput Q)
    (hguard : d.valid_docids.length < length)
    (hbc : d.bucket_counts.getD d.cur (0,0) = (l, t))
    (hl : 1 ≤ l)
    (htc : d.total_counts.getD d.cur 0 = tbc)
    (hcard : 1 < (d.universes.getD d.cur ∅).card)
    (hnb : (ctx.rules.getD d.cur default).next_bucket (d.states.getD d.cur default)
      (d.universes.getD d.cur ∅) = (st, some nb))
    (hbclen : d.cur + 1 < d.bucket_counts.length) :
    (ctx.rules ≠ [] →
      (bucket_sort_init ctx istates query univ).bucket_counts.getD 0 (0, 0) = (1, 1)) ∧
    (¬ (d.cur = ctx.rules.length - 1 ∨ nb.candidates.card ≤ 1 ∨
        d.cur_offset + nb.candidates.card < from_) →
      ∃ d2, loop_body ctx from_ length d = .next d2 ∧
        d2.bucket_counts.getD (d.cur + 1) (0, 0) =
          ((l - 1) * tbc + nb.remaining_buckets, t * tbc)) ∧
    ((d.cur = ctx.rules.length - 1 ∨ nb.candidates.card ≤ 1 ∨
        d.cur_offset + nb.candidates.card < from_) →
      ∀ d2, loop_body ctx from_ length d = .next d2 →
        ∃ k, d2.valid_scores = d.valid_scores ++
          List.replicate k ((l - 1) * tbc + nb.remaining_buckets, t * tbc)) := by
  have hguard2 : ¬ (length ≤ d.valid_docids.length) := Nat.not_le.mpr hguard
  have hcard2 : ¬ ((d.universes.getD d.cur ∅).card ≤ 1) := Nat.not_le.mpr hcard
  refine ⟨?_, ?_, ?_⟩
  · intro hne
    rw [bucket_sort_init]
    exact getD_replicate (by simpa using List.length_pos.mpr hne) _ _
  · intro hcond
    rw [loop_body.eq_def]
    dsimp only
    rw [if_neg hguard2, hbc]
    dsimp only
    rw [if_neg hcard2]
    rw [if_neg (by omega : ¬ (l = 0)), htc, hnb]
    dsimp only
    rw [if_neg hcond]
    refine ⟨_, rfl, ?_⟩
    exact getD_set_self (by simpa using hbclen) _ _
  · intro hcond d2 h
    rw [loop_body.eq_def] at h
    dsimp only at h
    rw [if_neg hguard2, hbc] at h
    dsimp only at h
    rw [if_neg hcard2] at h
    rw [if_neg (by omega : ¬ (l = 0)), htc, hnb] at h
    dsimp only at h
    rw [if_pos hcond] at h
    cases hcall : call_maybe_add ctx from_ length
        { d with
          states := d.states.set d.cur st
          universes := d.universes.set d.cur ((d.universes.getD d.cur ∅) \ nb.candidates) }
        nb.candidates ((l - 1) * tbc + nb.remaining_buckets, t * tbc) with
    | none => rw [hcall] at h; cases h
    | some dd =>
      rw [hcall] at h
      cases h
      obtain ⟨-, -, -, -, -, ⟨k, hk⟩, -⟩ := call_maybe_add_spec _ _ _ _ _ _ _ hcall
      exact ⟨k, hk⟩

/-- A one-bucket rule: each iteration emits its whole sub-universe as a
single bucket with `remaining_buckets = 1` against a declared total of
`1`. -/
def idRule : RankingRule Unit Unit :=
  { start_iteration := fun s _ _ => (s, 1)
    next_bucket := fun s u => (s, some { query := (), candidates := u, remaining_buckets := 1 })
    end_iteration := fun s => s }

/-- A two-rule chain of `idRule`, no distinct field. -/
def idCtx2 : DriverCtx Unit Unit := { distinct_fid := none, rules := [idRule, idRule] }

/-- Driver state with rule 0 freshly started on `{1, 2}`. -/
def dC1 : DriverState Unit Unit :=
  { states := [(), ()]
    universes := [{1,2}, ∅]
    total_counts := [1, 0]
    bucket_counts := [(1,1), (1,1)]
    cur := 0
    all_candidates := {1,2}
    valid_docids := []
    valid_scores := []
    cur_offset := 0 }

theorem c1_global_bucket_fraction_witness :
    (dC1.valid_docids.length < 5 ∧
     dC1.bucket_counts.getD dC1.cur (0,0) = (1, 1) ∧
     1 < (dC1.universes.getD dC1.cur ∅).card ∧
     dC1.cur + 1 < dC1.bucket_counts.length) ∧
    (bucket_sort_init idCtx2 [(), ()] () ({1,2} : RB)).bucket_counts.getD 0 (0, 0) = (1, 1) :=
  ⟨⟨by decide, by decide, by decide, by decide⟩,
   (c1_global_bucket_fraction idCtx2 [(), ()] () {1,2} 0 5 dC1 1 1 1 ()
      { query := (), candidates := {1,2}, remaining_buckets := 1 }
      (by decide) (by decide) (by decide) (by decide) (by decide) (by decide)
      (by decide)).1 (by simp [idCtx2])⟩

/-- Driver context with the Words rule under the `All` strategy as the
single ranking rule, over a graph matching the whole universe. -/
def ctxWords : DriverCtx (WordsState Unit Unit) Unit :=
  { distinct_fid := none, rules := [wordsRule extU] }

/-- Claim C2 counterexample: with the Words rule under the `All`
strategy as the only rule (declared total bucket count 1, reported
`remaining_buckets = 0 + 2`) over a two-document universe it fully
matches, the driver assigns both returned documents the score
`2 / 1 = 2 > 1`: not every returned score lies in `(0, 1]`. -/
theorem c2_score_range_counterexample :
    run_scores (bucket_sort ctxWords [Words.new .all] () ({1,2} : RB) 0 10 10) =
      some [(2,1), (2,1)] ∧
    1 < scoreVal (2, 1) := by
  constructor
  · decide
  · norm_num [scoreVal]

/-- Distinct reducer under which every document carries a distinct value
of its own. -/
def dctxC5 : DistinctCtx := { apply := fun c => (c, ∅), single := fun d => {d} }

/-- Empty rule chain with the all-distinct reducer configured. -/
def ctxC5 : DriverCtx Unit Unit := { distinct_fid := some dctxC5, rules := [] }

/-- Claim C5 failing run: with an empty rule chain, a configured
distinct field giving every document its own value, `from = 1` and
`length = 1` over the universe `{1, 2, 3}`, the fast path returns the
first `from + length = 2` representatives without dropping the first
`from` of them: `|docids| = |scores| = 2 > length = 1`, and document 1 —
which pagination should have skipped — is returned. -/
theorem c5_distinct_fast_path_overlong :
    run_docids (bucket_sort ctxC5 [] () ({1,2,3} : RB) 1 1 10) = some [1, 2] ∧
    run_scores (bucket_sort ctxC5 [] () ({1,2,3} : RB) 1 1 10) = some [(1,1), (1,1)] ∧
    1 < [1, 2].length := by
  refine ⟨by decide, by decide, by decide⟩

theorem getD_mem_or {α : Type} (l : List α) (i : ℕ) (dflt : α) :
    l.getD i dflt ∈ l ∨ l.getD i dflt = dflt := by
  rcases Nat.lt_or_ge i l.length with h | h
  · rw [List.getD_eq_getElem l dflt h]
    exact Or.inl (l.getElem_mem h)
  · right
    exact List.getD_eq_default l dflt h

/-- Driver-loop invariant for claim C9: the current rule index is in
range, `all_candidates` equals the original universe, and every
sub-universe is contained in it. -/
def C9Inv {σ Q : Type} (ctx : DriverCtx σ Q) (univ0 : RB)
    (d : DriverState σ Q) : Prop :=
  d.cur < ctx.rules.length ∧
  d.all_candidates = univ0 ∧
  ∀ u ∈ d.universes, u ⊆ univ0

/-- What one loop step must establish for claim C9. -/
def C9Step {σ Q : Type} (ctx : DriverCtx σ Q) (univ0 : RB) :
    StepRes σ Q → Prop
  | .next d2 => C9Inv ctx univ0 d2
  | .done (.ok out) => out.all_candidates = univ0
  | .done .panicked => True

theorem c9_inv_getD_subset {univ0 : RB} {l : List RB}
    (h : ∀ u ∈ l, u ⊆ univ0) (i : ℕ) :
    l.getD i ∅ ⊆ univ0 := by
  rcases getD_mem_or l i ∅ with hm | he
  · exact h _ hm
  · rw [he]
    exact Finset.empty_subset _

theorem c9_back_proc {σ Q : Type} [Inhabited σ] (ctx : DriverCtx σ Q)
    (univ0 : RB) (d : DriverState σ Q)
    (hcur : d.cur < ctx.rules.length)
    (hall : d.all_candidates = univ0)
    (huniv : ∀ u ∈ d.universes, u ⊆ univ0) :
    C9Step ctx univ0 (back_proc ctx d) := by
  rw [back_proc]
  split
  · dsimp only
    split
    · exact hall
    · refine ⟨by dsimp only; omega, hall, ?_⟩
      intro u hu
      rcases List.mem_or_eq_of_mem_set hu with hm | he
      · exact huniv _ hm
      · rw [he]
        exact Finset.empty_subset _
  · trivial

theorem c9_loop_body_preserves {σ Q : Type} [Inhabited σ] (ctx : DriverCtx σ Q)
    (from_ length : ℕ) (univ0 : RB)
    (hdist : ctx.distinct_fid = none)
    (Hsub : ∀ i, i < ctx.rules.length → ∀ s u st o,
      (ctx.rules.getD i default).next_bucket s u = (st, some o) → o.candidates ⊆ u)
    (d : DriverState σ Q) (hinv : C9Inv ctx univ0 d) :
    C9Step ctx univ0 (loop_body ctx from_ length d) := by
  obtain ⟨hcur, hall, huniv⟩ := hinv
  have hset : ∀ (v : RB), v ⊆ univ0 → ∀ i, ∀ u ∈ d.universes.set i v, u ⊆ univ0 := by
    intro v hv i u hu
    rcases List.mem_or_eq_of_mem_set hu with hm | he
    · exact huniv _ hm
    · rw [he]; exact hv
  rw [loop_body.eq_def]
  split
  · exact hall
  · dsimp only
    split
    · -- trivial sub-universe: flush it, then go back
      split
      · trivial
      · rename_i dd hcall
        obtain ⟨-, -, -, hc, -, -, hframe⟩ := call_maybe_add_spec _ _ _ _ _ _ _ hcall
        obtain ⟨hu2, ha2⟩ := hframe hdist
        refine c9_back_proc ctx univ0 dd (by rw [hc]; exact hcur) ?_ ?_
        · rw [ha2, hall]
          exact Finset.union_eq_left.mpr (c9_inv_getD_subset huniv d.cur)
        · rw [hu2]
          exact hset ∅ (Finset.empty_subset _) d.cur
    · split
      · -- leftover = 0: the checked_sub panics
        trivial
      · split
        · -- the rule is exhausted: go back
          rename_i st hnone
          exact c9_back_proc ctx univ0 _ hcur hall huniv
        · rename_i st nb hsome
          have hcand : nb.candidates ⊆ univ0 :=
            Finset.Subset.trans (Hsub d.cur hcur _ _ _ _ hsome)
              (c9_inv_getD_subset huniv d.cur)
          split
          · -- flush the bucket
            split
            · trivial
            · rename_i dd hcall
              obtain ⟨-, -, -, hc, -, -, hframe⟩ := call_maybe_add_spec _ _ _ _ _ _ _ hcall
              obtain ⟨hu2, ha2⟩ := hframe hdist
              refine ⟨by rw [hc]; exact hcur, ?_, ?_⟩
              · rw [ha2, hall]
                exact Finset.union_eq_left.mpr hcand
              · rw [hu2]
                exact hset _ (Finset.Subset.trans Finset.sdiff_subset
                  (c9_inv_getD_subset huniv d.cur)) d.cur
          · -- descend into the child rule
            rename_i hcond
            have hcur2 : d.cur + 1 < ctx.rules.length := by
              rcases not_or.mp hcond with ⟨h1, -⟩
              omega
            refine ⟨hcur2, hall, ?_⟩
            intro u hu
            rcases List.mem_or_eq_of_mem_set hu with hm | he
            · rcases List.mem_or_eq_of_mem_set hm with hm2 | he2
              · exact huniv _ hm2
              · rw [he2]
                exact Finset.Subset.trans Finset.sdiff_subset
                  (c9_inv_getD_subset huniv d.cur)
            · rw [he]
              exact hcand

theorem c9_loop {σ Q : Type} [Inhabited σ] (ctx : DriverCtx σ Q)
    (from_ length : ℕ) (univ0 : RB)
    (hdist : ctx.distinct_fid = none)
    (Hsub : ∀ i, i < ctx.rules.length → ∀ s u st o,
      (ctx.rules.getD i default).next_bucket s u = (st, some o) → o.candidates ⊆ u) :
    ∀ (fuel : ℕ) (d : DriverState σ Q) (out : BucketSortOutput),
      C9Inv ctx univ0 d →
      bucket_sort_loop ctx from_ length fuel d = some (.ok out) →
      out.all_candidates = univ0
  | 0, _, _, _, h => by cases h
  | fuel + 1, d, out, hinv, h => by
    rw [bucket_sort_loop.eq_def] at h
    dsimp only at h
    have hstep := c9_loop_body_preserves ctx from_ length univ0 hdist Hsub d hinv
    cases hlb : loop_body ctx from_ length d with
    | done r =>
      rw [hlb] at h hstep
      have hr : r = .ok out := Option.some.inj h
      rw [hr] at hstep
      exact hstep
    | next d2 =>
      rw [hlb] at h hstep
      exact c9_loop ctx from_ length univ0 hdist Hsub fuel d2 out hstep h

/-- Claim C9: with a non-empty rule chain and no distinct field, and
every rule emitting buckets contained in the sub-universe it was given
(the documented bucket invariant), the returned `all_candidates` is
exactly the input universe. -/
theorem c9_all_candidates_eq_universe {σ Q : Type} [Inhabited σ]
    (ctx : DriverCtx σ Q) (istates : List σ) (query : Q) (univ : RB)
    (from_ length fuel : ℕ) (out : BucketSortOutput)
    (hne : ctx.rules ≠ [])
    (hdist : ctx.distinct_fid = none)
    (Hsub : ∀ i, i < ctx.rules.length → ∀ s u st o,
      (ctx.rules.getD i default).next_bucket s u = (st, some o) → o.candidates ⊆ u)
    (hrun : bucket_sort ctx istates query univ from_ length fuel = some (.ok out)) :
    out.all_candidates = univ := by
  rw [bucket_sort] at hrun
  split at hrun
  · cases hrun
    rfl
  · rw [if_neg (by simpa [List.isEmpty_iff] using hne)] at hrun
    refine c9_loop ctx from_ length univ hdist Hsub fuel
      (bucket_sort_init ctx istates query univ) out ⟨?_, rfl, ?_⟩ hrun
    · exact List.length_pos.mpr hne
    · intro u hu
      rcases List.mem_or_eq_of_mem_set hu with hm | he
      · rw [List.eq_of_mem_replicate hm]
        exact Finset.empty_subset _
      · rw [he]

def idCtx1 : DriverCtx Unit Unit := { distinct_fid := none, rules := [idRule] }

theorem c9_all_candidates_witness :
    (idCtx1.rules ≠ [] ∧ idCtx1.distinct_fid = none) ∧
    ({ docids := [1,2], scores := [(1,1),(1,1)], all_candidates := {1,2} } :
        BucketSortOutput).all_candidates = ({1,2} : RB) :=
  ⟨⟨by simp [idCtx1], rfl⟩,
   c9_all_candidates_eq_universe idCtx1 [()] () {1,2} 0 10 10 _
     (by simp [idCtx1]) rfl
     (fun i hi s u st o h => by
       have hi1 : i = 0 := by
         simp only [idCtx1, List.length_singleton] at hi
         omega
       subst hi1
       have hr : idCtx1.rules.getD 0 default = idRule := rfl
       rw [hr] at h
       simp only [idRule] at h
       cases h
       exact Finset.Subset.refl u)
     (by decide)⟩

/-- A well-counted rule, relative to an abstract invariant `inv` tying
the rule state to the total bucket count it declared at its most recent
`start_iteration`: the rule declares totals of at least 1 and reports
`remaining_buckets` between 1 and that declared total.  This is the
contract the driver's global scoring implicitly relies on; the Words
rule violates it when its removal stack empties. -/
def RuleCountOK {σ Q : Type} (rule : RankingRule σ Q)
    (inv : σ → ℕ → Prop) : Prop :=
  (∀ s u q, 1 ≤ (rule.start_iteration s u q).2 ∧
    inv (rule.start_iteration s u q).1 (rule.start_iteration s u q).2) ∧
  (∀ s u st o tc, inv s tc → rule.next_bucket s u = (st, some o) →
    1 ≤ o.remaining_buckets ∧ o.remaining_buckets ≤ tc ∧ inv st tc)

/-- Driver-loop invariant for the amended claim C2: the index is in
range, the bookkeeping lists have full length, every global pair
`(leftover, total)` satisfies `1 ≤ leftover ≤ total`, every started rule
has declared a positive total and satisfies its abstract invariant, and
every accumulated score pair is in range. -/
def ScoreInv {σ Q : Type} [Inhabited σ] (ctx : DriverCtx σ Q)
    (invs : ℕ → σ → ℕ → Prop) (d : DriverState σ Q) : Prop :=
  d.cur < ctx.rules.length ∧
  d.bucket_counts.length = ctx.rules.length ∧
  d.total_counts.length = ctx.rules.length ∧
  d.states.length = ctx.rules.length ∧
  (∀ i, i < ctx.rules.length → 1 ≤ (d.bucket_counts.getD i (0,0)).1 ∧
    (d.bucket_counts.getD i (0,0)).1 ≤ (d.bucket_counts.getD i (0,0)).2) ∧
  (∀ i, i ≤ d.cur → 1 ≤ d.total_counts.getD i 0 ∧
    invs i (d.states.getD i default) (d.total_counts.getD i 0)) ∧
  (∀ p ∈ d.valid_scores, 1 ≤ p.1 ∧ p.1 ≤ p.2)

/-- What one loop step must establish for the amended claim C2. -/
def C2Step {σ Q : Type} [Inhabited σ] (ctx : DriverCtx σ Q)
    (invs : ℕ → σ → ℕ → Prop) : StepRes σ Q → Prop
  | .next d2 => ScoreInv ctx invs d2
  | .done (.ok out) => ∀ p ∈ out.scores, 1 ≤ p.1 ∧ p.1 ≤ p.2
  | .done .panicked => True

theorem global_pair_le {l t tc r : ℕ} (hl : 1 ≤ l) (hlt : l ≤ t) (hr : r ≤ tc) :
    (l - 1) * tc + r ≤ t * tc :=
  calc (l - 1) * tc + r ≤ (l - 1) * tc + tc := Nat.add_le_add_left hr _
    _ = (l - 1 + 1) * tc := (Nat.succ_mul _ _).symm
    _ = l * tc := by congr 1; omega
    _ ≤ t * tc := Nat.mul_le_mul_right tc hlt

theorem c2_back_proc {σ Q : Type} [Inhabited σ] (ctx : DriverCtx σ Q)
    (invs : ℕ → σ → ℕ → Prop) (d : DriverState σ Q)
    (hcur : d.cur < ctx.rules.length)
    (hbl : d.bucket_counts.length = ctx.rules.length)
    (htl : d.total_counts.length = ctx.rules.length)
    (hsl : d.states.length = ctx.rules.length)
    (hpairs : ∀ i, i < ctx.rules.length → 1 ≤ (d.bucket_counts.getD i (0,0)).1 ∧
      (d.bucket_counts.getD i (0,0)).1 ≤ (d.bucket_counts.getD i (0,0)).2)
    (hstarted : ∀ i, i < d.cur → 1 ≤ d.total_counts.getD i 0 ∧
      invs i (d.states.getD i default) (d.total_counts.getD i 0))
    (hscores : ∀ p ∈ d.valid_scores, 1 ≤ p.1 ∧ p.1 ≤ p.2) :
    C2Step ctx invs (back_proc ctx d) := by
  rw [back_proc]
  split
  · dsimp only
    split
    · exact hscores
    · rename_i hne0
      refine ⟨?_, ?_, ?_, ?_, ?_, ?_, ?_⟩ <;> dsimp only
      · omega
      · exact hbl
      · exact htl
      · rw [List.length_set]
        exact hsl
      · exact hpairs
      · intro i hi
        have hi2 : i < d.cur := by omega
        have hne : d.cur ≠ i := by omega
        rw [getD_set_ne hne]
        exact hstarted i hi2
      · exact hscores
  · trivial

theorem c2_loop_body_preserves {σ Q : Type} [Inhabited σ] (ctx : DriverCtx σ Q)
    (invs : ℕ → σ → ℕ → Prop) (from_ length : ℕ)
    (HR : ∀ i, i < ctx.rules.length → RuleCountOK (ctx.rules.getD i default) (invs i))
    (d : DriverState σ Q) (hinv : ScoreInv ctx invs d) :
    C2Step ctx invs (loop_body ctx from_ length d) := by
  obtain ⟨hcur, hbl, htl, hsl, hpairs, hstarted, hscores⟩ := hinv
  rw [loop_body.eq_def]
  split
  · exact hscores
  · dsimp only
    split
    · -- trivial sub-universe: flush at score (leftover, total), then back
      split
      · trivial
      · rename_i dd hcall
        obtain ⟨hst, htc, hbc, hc, -, ⟨k, hk⟩, -⟩ := call_maybe_add_spec _ _ _ _ _ _ _ hcall
        dsimp only at hst htc hbc hc hk
        refine c2_back_proc ctx invs dd (by rw [hc]; exact hcur)
          (by rw [hbc]; exact hbl) (by rw [htc]; exact htl) (by rw [hst]; exact hsl)
          (by rw [hbc]; exact hpairs) ?_ ?_
        · intro i hi
          rw [hc] at hi
          rw [htc, hst]
          exact hstarted i (le_of_lt hi)
        · intro p hp
          rw [hk] at hp
          rcases List.mem_append.mp hp with hp1 | hp2
          · exact hscores p hp1
          · rw [List.eq_of_mem_replicate hp2]
            exact hpairs d.cur hcur
    · split
      · -- leftover = 0: the checked_sub panics
        trivial
      · split
        · -- the rule is exhausted: go back
          rename_i st hnone
          refine c2_back_proc ctx invs _ hcur hbl htl
            (by dsimp only; rw [List.length_set]; exact hsl) hpairs ?_ hscores
          intro i hi
          dsimp only at hi ⊢
          rw [getD_set_ne (by omega : d.cur ≠ i)]
          exact hstarted i (le_of_lt hi)
        · rename_i st nb hsome
          have htcc := hstarted d.cur (le_refl _)
          have hnb := (HR d.cur hcur).2 _ _ _ _ _ htcc.2 hsome
          have hp := hpairs d.cur hcur
          split
          · -- flush the bucket at the global fraction
            split
            · trivial
            · rename_i dd hcall
              obtain ⟨hst, htc, hbc, hc, -, ⟨k, hk⟩, -⟩ := call_maybe_add_spec _ _ _ _ _ _ _ hcall
              dsimp only at hst htc hbc hc hk
              refine ⟨by rw [hc]; exact hcur, by rw [hbc]; exact hbl,
                by rw [htc]; exact htl, by rw [hst, List.length_set]; exact hsl,
                by rw [hbc]; exact hpairs, ?_, ?_⟩
              · intro i hi
                rw [hc] at hi
                rw [htc, hst]
                by_cases hieq : i = d.cur
                · subst hieq
                  rw [getD_set_self (by rw [hsl]; exact hcur)]
                  exact ⟨(hstarted d.cur (le_refl _)).1, hnb.2.2⟩
                · rw [getD_set_ne (by omega : d.cur ≠ i)]
                  exact hstarted i hi
              · intro p hpm
                rw [hk] at hpm
                rcases List.mem_append.mp hpm with hp1 | hp2
                · exact hscores p hp1
                · rw [List.eq_of_mem_replicate hp2]
                  refine ⟨le_trans hnb.1 (Nat.le_add_left _ _), ?_⟩
                  exact global_pair_le hp.1 hp.2 hnb.2.1
          · -- descend into the child rule
            rename_i hcond
            have hcur2 : d.cur + 1 < ctx.rules.length := by
              rcases not_or.mp hcond with ⟨h1, -⟩
              omega
            have hsu := (HR (d.cur + 1) hcur2).1
              ((d.states.set d.cur st).getD (d.cur + 1) default) nb.candidates nb.query
            refine ⟨?_, ?_, ?_, ?_, ?_, ?_, ?_⟩ <;> dsimp only
            · exact hcur2
            · rw [List.length_set]; exact hbl
            · rw [List.length_set]; exact htl
            · rw [List.length_set, List.length_set]; exact hsl
            · intro i hi
              by_cases hieq : i = d.cur + 1
              · subst hieq
                rw [getD_set_self (by rw [hbl]; exact hcur2)]
                refine ⟨le_trans hnb.1 (Nat.le_add_left _ _), ?_⟩
                exact global_pair_le hp.1 hp.2 hnb.2.1
              · rw [getD_set_ne (by omega : d.cur + 1 ≠ i)]
                exact hpairs i hi
            · intro i hi
              rcases Nat.eq_or_lt_of_le hi with rfl | hi2
              · rw [getD_set_self (by rw [htl]; exact hcur2),
                  getD_set_self (by rw [List.length_set, hsl]; exact hcur2)]
                exact hsu
              · have hile : i ≤ d.cur := by omega
                rw [getD_set_ne (by omega : d.cur + 1 ≠ i),
                  getD_set_ne (by omega : d.cur + 1 ≠ i)]
                by_cases hieq : i = d.cur
                · subst hieq
                  rw [getD_set_self (by rw [hsl]; exact hcur)]
                  exact ⟨(hstarted d.cur (le_refl _)).1, hnb.2.2⟩
                · rw [getD_set_ne (by omega : d.cur ≠ i)]
                  exact hstarted i hile
            · exact hscores

theorem c2_loop {σ Q : Type} [Inhabited σ] (ctx : DriverCtx σ Q)
    (invs : ℕ → σ → ℕ → Prop) (from_ length : ℕ)
    (HR : ∀ i, i < ctx.rules.length → RuleCountOK (ctx.rules.getD i default) (invs i)) :
    ∀ (fuel : ℕ) (d : DriverState σ Q) (out : BucketSortOutput),
      ScoreInv ctx invs d →
      bucket_sort_loop ctx from_ length fuel d = some (.ok out) →
      ∀ p ∈ out.scores, 1 ≤ p.1 ∧ p.1 ≤ p.2
  | 0, _, _, _, h => by cases h
  | fuel + 1, d, out, hinv, h => by
    rw [bucket_sort_loop.eq_def] at h
    dsimp only at h
    have hstep := c2_loop_body_preserves ctx invs from_ length HR d hinv
    cases hlb : loop_body ctx from_ length d with
    | done r =>
      rw [hlb] at h hstep
      have hr : r = .ok out := Option.some.inj h
      rw [hr] at hstep
      exact hstep
    | next d2 =>
      rw [hlb] at h hstep
      exact c2_loop ctx invs from_ length HR fuel d2 out hstep h

theorem scoreVal_range (p : Score) (h1 : 1 ≤ p.1) (h2 : p.1 ≤ p.2) :
    0 < scoreVal p ∧ scoreVal p ≤ 1 := by
  have hd : (0 : ℚ) < (p.2 : ℚ) := by
    have h3 : 0 < p.2 := by omega
    exact_mod_cast h3
  constructor
  · apply div_pos
    · have h4 : 0 < p.1 := by omega
      exact_mod_cast h4
    · exact hd
  · rw [scoreVal, div_le_one hd]
    exact_mod_cast h2

/-- Claim C2 amended: every returned score lies in `(0, 1]` provided
every rule in the chain is well-counted — it declares totals of at
least 1 and reports `remaining_buckets` between 1 and the total it
declared at the preceding `start_iteration`.  (The Words rule violates
this once its removal stack empties, reporting `|stack| + 2` against a
declared `|stack| + 1`, and scores then exceed 1.) -/
theorem c2_score_range_amended {σ Q : Type} [Inhabited σ]
    (ctx : DriverCtx σ Q) (invs : ℕ → σ → ℕ → Prop) (istates : List σ)
    (query : Q) (univ : RB) (from_ length fuel : ℕ) (out : BucketSortOutput)
    (HR : ∀ i, i < ctx.rules.length → RuleCountOK (ctx.rules.getD i default) (invs i))
    (hlen : istates.length = ctx.rules.length)
    (hrun : bucket_sort ctx istates query univ from_ length fuel = some (.ok out)) :
    ∀ p ∈ out.scores, 0 < scoreVal p ∧ scoreVal p ≤ 1 := by
  have key : ∀ p ∈ out.scores, 1 ≤ p.1 ∧ p.1 ≤ p.2 := by
    rw [bucket_sort] at hrun
    split at hrun
    · cases hrun
      intro p hp
      exact absurd hp (List.not_mem_nil p)
    · split at hrun
      · -- empty rule chain: both fast paths score (1, 1)
        rename_i hemp
        split at hrun
        · cases hrun
          intro p hp
          rw [List.eq_of_mem_replicate hp]
          exact ⟨le_refl 1, le_refl 1⟩
        · cases hrun
          intro p hp
          rw [List.eq_of_mem_replicate hp]
          exact ⟨le_refl 1, le_refl 1⟩
      · rename_i hemp
        have hne : ctx.rules ≠ [] := by
          simpa [List.isEmpty_iff] using hemp
        have hlenpos : 0 < ctx.rules.length := List.length_pos.mpr hne
        refine c2_loop ctx invs from_ length HR fuel
          (bucket_sort_init ctx istates query univ) out
          ⟨hlenpos, ?_, ?_, ?_, ?_, ?_, ?_⟩ hrun
        · rw [bucket_sort_init]
          exact List.length_replicate _ _
        · rw [bucket_sort_init]
          dsimp only
          rw [List.length_set, List.length_replicate]
        · rw [bucket_sort_init]
          dsimp only
          rw [List.length_set]
          exact hlen
        · intro i hi
          rw [bucket_sort_init]
          dsimp only
          rw [getD_replicate hi]
          exact ⟨le_refl 1, le_refl 1⟩
        · intro i hi
          have hi0 : i = 0 := Nat.le_zero.mp hi
          subst hi0
          rw [bucket_sort_init]
          dsimp only
          rw [getD_set_self (by rw [List.length_replicate]; exact hlenpos),
            getD_set_self (by rw [hlen]; exact hlenpos)]
          exact (HR 0 hlenpos).1 (istates.getD 0 default) univ query
        · intro p hp
          exact absurd hp (List.not_mem_nil p)
  intro p hp
  obtain ⟨h1, h2⟩ := key p hp
  exact scoreVal_range p h1 h2

theorem c2_score_range_amended_witness :
    (([()] : List Unit).length = idCtx1.rules.length) ∧
    (0 < scoreVal (1, 1) ∧ scoreVal (1, 1) ≤ 1) :=
  ⟨rfl,
   c2_score_range_amended idCtx1 (fun _ _ tc => 1 ≤ tc) [()] () {1,2} 0 10 10
     { docids := [1,2], scores := [(1,1),(1,1)], all_candidates := {1,2} }
     (fun i hi => by
       have hi0 : i = 0 := by
         simp only [idCtx1, List.length_singleton] at hi
         omega
       subst hi0
       have hr : idCtx1.rules.getD 0 default = idRule := rfl
       rw [hr]
       constructor
       · intro s u q
         exact ⟨le_refl 1, le_refl 1⟩
       · intro s u st o tc hinv h
         simp only [idRule] at h
         cases h
         exact ⟨le_refl 1, hinv, hinv⟩)
     rfl (by decide) (1, 1) (by simp)⟩
